import Mathlib

/-!
Verification of the remote captioning orchestrator of
`video-animals-stories-maker` (src/services/storage.service.ts,
src/services/media.service.ts), via a shallow embedding of its
operations in Lean.
-/

/-- A transcript chunk from the captioning provider: an optional `text`
field plus opaque timing/metadata fields (modelled as a single opaque
`meta` value, passed through untouched by the code under study).
Mirrors `TranscriptChunk` of storage.service.ts. -/
structure TranscriptChunk where
  text : Option String
  meta : Nat
deriving Repr, DecidableEq

/-- The filter predicate of `correctTranscript`
(storage.service.ts line 412): `typeof chunk.text === "string" &&
chunk.text.length > 0`. -/
def chunkHasText (c : TranscriptChunk) : Bool :=
  match c.text with
  | some s => s.length > 0
  | none => false

/-- The merge loop of `correctTranscript` (storage.service.ts lines
429-435): walk the copied chunk list; for each chunk with non-empty
text, set `chunk.text = correctedChunks[correctionIndex]?.text ??
chunk.text` and increment `correctionIndex`; other chunks are left as
they are.  `i` is the running `correctionIndex`. -/
def mergeStep (correctedChunks : List String) : List TranscriptChunk → Nat → List TranscriptChunk
  | [], _ => []
  | c :: cs, i =>
      if chunkHasText c then
        (match correctedChunks[i]? with
          | some t => { c with text := some t }
          | none => c) :: mergeStep correctedChunks cs (i + 1)
      else
        c :: mergeStep correctedChunks cs i

/-- `correctTranscript` of storage.service.ts (lines 408-438), with the
remote correction model's reply passed in as `correctedChunks` (in the
source, the reply of `correctTranscriptChunks`, already projected to its
`text` fields).  First the chunks with non-empty text are counted
(`compactTranscript`), the shape check rejects a reply of a different
length, and otherwise the merge walk produces the result list. -/
def correctTranscript (transcript : List TranscriptChunk)
    (correctedChunks : List String) : Except String (List TranscriptChunk) :=
  let compactTranscript := transcript.filter chunkHasText
  if correctedChunks.length ≠ compactTranscript.length then
    .error "Corrected transcript length does not match original transcript length"
  else
    .ok (mergeStep correctedChunks transcript 0)

/-- The spec's description of the merge (spec §4.4 step 4), as an
inductive relation: re-walk the original chunk list in order; a chunk
with non-empty text takes the next corrected text value in sequence
(its other fields preserved); a chunk without text is copied through
unchanged. -/
inductive MergeRel : List TranscriptChunk → List String → List TranscriptChunk → Prop
  | nil : MergeRel [] [] []
  | subst {c : TranscriptChunk} {cs : List TranscriptChunk} {t : String}
      {ts : List String} {out : List TranscriptChunk} :
      chunkHasText c = true → MergeRel cs ts out →
      MergeRel (c :: cs) (t :: ts) ({ c with text := some t } :: out)
  | copy {c : TranscriptChunk} {cs : List TranscriptChunk}
      {ts : List String} {out : List TranscriptChunk} :
      chunkHasText c = false → MergeRel cs ts out →
      MergeRel (c :: cs) ts (c :: out)

theorem mergeStep_drop :
    ∀ (cs : List TranscriptChunk) (l : List String) (i : Nat),
      mergeStep l cs i = mergeStep (l.drop i) cs 0 := by
  intro cs
  induction cs with
  | nil => intro l i; simp [mergeStep]
  | cons c cs ih =>
      intro l i
      by_cases h : chunkHasText c
      · have hhead : l[i]? = (l.drop i)[0]? := by
          simp [List.getElem?_drop]
        have htail : l.drop (i + 1) = (l.drop i).drop 1 := by
          simp [List.drop_drop, Nat.add_comm]
        simp only [mergeStep, h, if_true, hhead, ih l (i + 1), ih (l.drop i) 1]
        rw [htail]
      · simp only [mergeStep, h, if_false, Bool.false_eq_true, ih l i]

theorem mergeStep_rel :
    ∀ (cs : List TranscriptChunk) (ts : List String),
      ts.length = (cs.filter chunkHasText).length →
      MergeRel cs ts (mergeStep ts cs 0) := by
  intro cs
  induction cs with
  | nil =>
      intro ts h
      have : ts = [] := by
        simpa using List.eq_nil_of_length_eq_zero (by simpa using h)
      subst this
      exact MergeRel.nil
  | cons c cs ih =>
      intro ts h
      by_cases hc : chunkHasText c
      · match ts with
        | [] => simp [List.filter_cons, hc] at h
        | t :: ts' =>
            have h' : ts'.length = (cs.filter chunkHasText).length := by
              simpa [List.filter_cons, hc] using h
            have := ih ts' h'
            simp only [mergeStep, hc, if_true, List.getElem?_cons_zero]
            have hdrop : mergeStep (t :: ts') cs 1 = mergeStep ts' cs 0 := by
              simpa using mergeStep_drop cs (t :: ts') 1
            rw [hdrop]
            exact MergeRel.subst hc this
      · have h' : ts.length = (cs.filter chunkHasText).length := by
          simpa [List.filter_cons, hc] using h
        simp only [mergeStep, hc, if_false, Bool.false_eq_true]
        exact MergeRel.copy (by simpa using hc) (ih ts h')

theorem MergeRel.length_eq {cs : List TranscriptChunk} {ts : List String}
    {out : List TranscriptChunk} (h : MergeRel cs ts out) :
    out.length = cs.length := by
  induction h with
  | nil => rfl
  | subst _ _ ih => simpa using ih
  | copy _ _ ih => simpa using ih

theorem MergeRel.meta_eq {cs : List TranscriptChunk} {ts : List String}
    {out : List TranscriptChunk} (h : MergeRel cs ts out) :
    out.map TranscriptChunk.meta = cs.map TranscriptChunk.meta := by
  induction h with
  | nil => rfl
  | subst _ _ ih => simpa using ih
  | copy _ _ ih => simpa using ih

/-- C1: whenever the corrected list's length equals the number of chunks
with non-empty text, `correctTranscript` returns a list related to its
input by `MergeRel` (texts substituted in sequence, placeholders copied
through), of the original length, with every chunk's metadata
preserved. -/
theorem correctTranscript_merges_in_order (transcript : List TranscriptChunk)
    (correctedChunks : List String)
    (h : correctedChunks.length = (transcript.filter chunkHasText).length) :
    ∃ out, correctTranscript transcript correctedChunks = .ok out ∧
      MergeRel transcript correctedChunks out ∧
      out.length = transcript.length ∧
      out.map TranscriptChunk.meta = transcript.map TranscriptChunk.meta := by
  refine ⟨mergeStep correctedChunks transcript 0, ?_, ?_, ?_, ?_⟩
  · simp [correctTranscript, h]
  · exact mergeStep_rel transcript correctedChunks h
  · exact (mergeStep_rel transcript correctedChunks h).length_eq
  · exact (mergeStep_rel transcript correctedChunks h).meta_eq

/-- Witness for C1 at the spec's concrete example: chunks
`[{text:"helo"}, {}, {text:"wrold"}]` with corrections
`["hello", "world"]` merge to `[{text:"hello"}, {}, {text:"world"}]`. -/
theorem correctTranscript_merges_in_order_witness :
    (∃ out,
      correctTranscript
        [⟨some "helo", 0⟩, ⟨none, 1⟩, ⟨some "wrold", 2⟩]
        ["hello", "world"] = .ok out ∧
      MergeRel [⟨some "helo", 0⟩, ⟨none, 1⟩, ⟨some "wrold", 2⟩]
        ["hello", "world"] out ∧
      out.length = 3 ∧
      out.map TranscriptChunk.meta = [0, 1, 2]) ∧
    correctTranscript
        [⟨some "helo", 0⟩, ⟨none, 1⟩, ⟨some "wrold", 2⟩]
        ["hello", "world"]
      = .ok [⟨some "hello", 0⟩, ⟨none, 1⟩, ⟨some "world", 2⟩] :=
  ⟨correctTranscript_merges_in_order
      [⟨some "helo", 0⟩, ⟨none, 1⟩, ⟨some "wrold", 2⟩]
      ["hello", "world"] (by decide), by rfl⟩

/-- C2: if the correction step's reply has a different count than the
chunks with non-empty text that were sent, `correctTranscript` raises
the shape-mismatch error and performs no merge at all. -/
theorem correctTranscript_shape_mismatch_errors (transcript : List TranscriptChunk)
    (correctedChunks : List String)
    (h : correctedChunks.length ≠ (transcript.filter chunkHasText).length) :
    correctTranscript transcript correctedChunks
      = .error "Corrected transcript length does not match original transcript length" := by
  simp [correctTranscript, h]

/-- Witness for C2: the spec's concrete case of a reply of 1 item for 2
non-empty input chunks. -/
theorem correctTranscript_shape_mismatch_errors_witness :
    (["hello"].length
        ≠ (([⟨some "helo", 0⟩, ⟨none, 1⟩, ⟨some "wrold", 2⟩]
            : List TranscriptChunk).filter chunkHasText).length) ∧
    correctTranscript [⟨some "helo", 0⟩, ⟨none, 1⟩, ⟨some "wrold", 2⟩] ["hello"]
      = .error "Corrected transcript length does not match original transcript length" :=
  ⟨by decide,
   correctTranscript_shape_mismatch_errors
      [⟨some "helo", 0⟩, ⟨none, 1⟩, ⟨some "wrold", 2⟩] ["hello"] (by decide)⟩

/-- The remote/network operations a caption run can issue (upload,
task creation, status probe, transcript fetch, correction call,
transcript push, approval, download). -/
inductive RemoteCall
  | upload
  | createTask
  | statusProbe
  | transcriptFetch
  | correctionCall
  | putTranscript
  | approve
  | download
deriving Repr, DecidableEq

/-- An observable side effect of the orchestrator: a remote call or a
call of `sleep` with its duration in milliseconds. -/
inductive Event
  | remote (call : RemoteCall)
  | sleepMs (milliseconds : Nat)
deriving Repr, DecidableEq

/-- `String(lastError)` at the end of `createCaptionedVideo`: the
recorded message, or the string `"undefined"` when no attempt ran. -/
def errText : Option String → String
  | some e => e
  | none => "undefined"

/-- The retry `for` loop of `createCaptionedVideo` (storage.service.ts
lines 230-257), compiled to structural recursion on the number of
remaining iterations: `remaining` counts the loop iterations still to
run (`maxRetryAttempts + 1 - attempt` in the source's terms).  Each
iteration runs one full attempt (`runAttempt attempt` yields the
attempt's outcome and its event trace); on failure the error is
recorded and, when `attempt < maxRetryAttempts`, a sleep of
`2000 * attempt` milliseconds is issued before the next iteration.
After the last iteration the aggregated error embeds the last cause. -/
def retryAttempts (runAttempt : Nat → Except String String × List Event)
    (maxRetryAttempts : Nat) :
    Nat → Nat → Option String → List Event → Except String String × List Event
  | 0, _, lastError, trace =>
      (.error ("Failed to create captioned video after retries: " ++ errText lastError), trace)
  | remaining + 1, attempt, _, trace =>
      match runAttempt attempt with
      | (.ok p, ev) => (.ok p, trace ++ ev)
      | (.error e, ev) =>
          retryAttempts runAttempt maxRetryAttempts remaining (attempt + 1) (some e)
            (trace ++ ev
              ++ (if attempt < maxRetryAttempts then [Event.sleepMs (2000 * attempt)] else []))

/-- `createCaptionedVideo` of storage.service.ts (lines 220-258):
if the output file already exists the path is returned at once with no
events; otherwise the retry loop runs attempts `1..maxRetryAttempts`. -/
def createCaptionedVideo (outputExists : Bool) (outputPath : String)
    (runAttempt : Nat → Except String String × List Event)
    (maxRetryAttempts : Nat) : Except String String × List Event :=
  if outputExists then (.ok outputPath, [])
  else retryAttempts runAttempt maxRetryAttempts maxRetryAttempts 1 none []

/-- The sleep durations occurring in a trace, in order. -/
def traceSleeps (trace : List Event) : List Nat :=
  trace.filterMap (fun e =>
    match e with
    | .sleepMs n => some n
    | .remote _ => none)

/-- The expected trace of a run whose every attempt fails: the traces of
attempts `attempt, attempt+1, ...` in order, a sleep of `2000 * k`
after each attempt `k < maxRetryAttempts`. -/
def alwaysFailTrace (attemptTrace : Nat → List Event) (maxRetryAttempts : Nat) :
    Nat → Nat → List Event
  | 0, _ => []
  | remaining + 1, attempt =>
      attemptTrace attempt
        ++ (if attempt < maxRetryAttempts then [Event.sleepMs (2000 * attempt)] else [])
        ++ alwaysFailTrace attemptTrace maxRetryAttempts remaining (attempt + 1)

theorem retryAttempts_succ_error
    (runAttempt : Nat → Except String String × List Event)
    (maxRetryAttempts remaining attempt : Nat) (lastError : Option String)
    (trace : List Event) (e : String) (ev : List Event)
    (h : runAttempt attempt = (.error e, ev)) :
    retryAttempts runAttempt maxRetryAttempts (remaining + 1) attempt lastError trace
      = retryAttempts runAttempt maxRetryAttempts remaining (attempt + 1) (some e)
          (trace ++ ev
            ++ (if attempt < maxRetryAttempts then [Event.sleepMs (2000 * attempt)] else [])) := by
  simp only [retryAttempts, h]

theorem alwaysFailTrace_succ (attemptTrace : Nat → List Event)
    (maxRetryAttempts remaining attempt : Nat) :
    alwaysFailTrace attemptTrace maxRetryAttempts (remaining + 1) attempt
      = attemptTrace attempt
          ++ (if attempt < maxRetryAttempts then [Event.sleepMs (2000 * attempt)] else [])
          ++ alwaysFailTrace attemptTrace maxRetryAttempts remaining (attempt + 1) := rfl

theorem retryAttempts_always_fails
    (cause : Nat → String) (attemptTrace : Nat → List Event)
    (runAttempt : Nat → Except String String × List Event)
    (maxRetryAttempts : Nat)
    (hfail : ∀ n, runAttempt n = (.error (cause n), attemptTrace n)) :
    ∀ (remaining attempt : Nat) (lastError : Option String) (trace : List Event),
      1 ≤ remaining →
      retryAttempts runAttempt maxRetryAttempts remaining attempt lastError trace
        = (.error ("Failed to create captioned video after retries: "
              ++ cause (attempt + remaining - 1)),
           trace ++ alwaysFailTrace attemptTrace maxRetryAttempts remaining attempt) := by
  intro remaining
  induction remaining with
  | zero => intro attempt lastError trace h; omega
  | succ r ih =>
      intro attempt lastError trace _
      rw [retryAttempts_succ_error runAttempt maxRetryAttempts r attempt lastError trace
            (cause attempt) (attemptTrace attempt) (hfail attempt)]
      cases r with
      | zero =>
          rw [alwaysFailTrace_succ]
          simp [retryAttempts, alwaysFailTrace, errText, List.append_assoc]
      | succ r' =>
          rw [ih (attempt + 1) (some (cause attempt)) _ (by omega)]
          rw [alwaysFailTrace_succ]
          have hidx : attempt + 1 + (r' + 1) - 1 = attempt + (r' + 1 + 1) - 1 := by omega
          rw [hidx]
          rw [alwaysFailTrace_succ attemptTrace maxRetryAttempts (r' + 1) attempt,
            alwaysFailTrace_succ attemptTrace maxRetryAttempts r' (attempt + 1)]
          simp [List.append_assoc]

theorem traceSleeps_append (t u : List Event) :
    traceSleeps (t ++ u) = traceSleeps t ++ traceSleeps u := by
  simp [traceSleeps, List.filterMap_append]

theorem traceSleeps_nil : traceSleeps [] = [] := rfl

theorem traceSleeps_alwaysFailTrace
    (attemptTrace : Nat → List Event) (maxRetryAttempts : Nat)
    (hnosleep : ∀ n, traceSleeps (attemptTrace n) = []) :
    ∀ (remaining attempt : Nat), attempt + remaining = maxRetryAttempts + 1 →
      traceSleeps (alwaysFailTrace attemptTrace maxRetryAttempts remaining attempt)
        = (List.range' attempt (remaining - 1)).map (fun k => 2000 * k) := by
  intro remaining
  induction remaining with
  | zero => intro attempt h; simp [alwaysFailTrace, traceSleeps]
  | succ r ih =>
      intro attempt h
      rw [alwaysFailTrace_succ, traceSleeps_append, traceSleeps_append, hnosleep]
      cases r with
      | zero =>
          have hge : ¬ attempt < maxRetryAttempts := by omega
          simp [hge, alwaysFailTrace, traceSleeps_nil]
      | succ r' =>
          have hlt : attempt < maxRetryAttempts := by omega
          rw [ih (attempt + 1) (by omega)]
          simp [hlt, traceSleeps, List.range'_succ]

theorem pairwise_lt_map_linear :
    ∀ (n a : Nat), ((List.range' a n).map (fun k => 2000 * k)).Pairwise (· < ·) := by
  intro n
  induction n with
  | zero => intro a; simp
  | succ m ih =>
      intro a
      have hr : List.range' a (m + 1) = a :: List.range' (a + 1) m := by
        simpa using List.range'_succ a m 1
      rw [hr]
      simp only [List.map_cons, List.pairwise_cons]
      refine ⟨?_, ih (a + 1)⟩
      intro b hb
      simp only [List.mem_map] at hb
      obtain ⟨k, hk, rfl⟩ := hb
      have : a + 1 ≤ k := (List.mem_range'_1.mp hk).1
      omega

/-- C3: when the output file already exists, `createCaptionedVideo`
returns that path at once with an empty event trace: no remote call of
any kind and no sleep is issued. -/
theorem createCaptionedVideo_idempotent (outputPath : String)
    (runAttempt : Nat → Except String String × List Event)
    (maxRetryAttempts : Nat) :
    createCaptionedVideo true outputPath runAttempt maxRetryAttempts
      = (.ok outputPath, []) := by
  simp [createCaptionedVideo]

/-- C4: with an always-failing client (attempt `n` fails with message
`cause n`, its own trace `attemptTrace n` containing no sleep) and the
output file absent, `createCaptionedVideo` runs exactly the attempts
`1..maxRetryAttempts` (the final trace is their traces in order), the
sleeps in the trace are exactly `2000·1, 2000·2, …, 2000·(maxRetryAttempts-1)`
— one between each pair of consecutive attempts, none after the last —
strictly increasing, and the aggregated error embeds the last cause. -/
theorem createCaptionedVideo_retry_bound (outputPath : String)
    (cause : Nat → String) (attemptTrace : Nat → List Event)
    (runAttempt : Nat → Except String String × List Event)
    (maxRetryAttempts : Nat)
    (hmax : 1 ≤ maxRetryAttempts)
    (hfail : ∀ n, runAttempt n = (.error (cause n), attemptTrace n))
    (hnosleep : ∀ n, traceSleeps (attemptTrace n) = []) :
    createCaptionedVideo false outputPath runAttempt maxRetryAttempts
      = (.error ("Failed to create captioned video after retries: "
            ++ cause maxRetryAttempts),
         alwaysFailTrace attemptTrace maxRetryAttempts maxRetryAttempts 1) ∧
    traceSleeps (alwaysFailTrace attemptTrace maxRetryAttempts maxRetryAttempts 1)
      = (List.range' 1 (maxRetryAttempts - 1)).map (fun k => 2000 * k) ∧
    List.Chain' (· < ·)
      (traceSleeps (alwaysFailTrace attemptTrace maxRetryAttempts maxRetryAttempts 1)) := by
  have hsleeps := traceSleeps_alwaysFailTrace attemptTrace maxRetryAttempts hnosleep
      maxRetryAttempts 1 (by omega)
  refine ⟨?_, hsleeps, ?_⟩
  · have := retryAttempts_always_fails cause attemptTrace runAttempt maxRetryAttempts hfail
        maxRetryAttempts 1 none [] (by omega)
    have hidx : 1 + maxRetryAttempts - 1 = maxRetryAttempts := by omega
    rw [hidx] at this
    simpa [createCaptionedVideo] using this
  · rw [hsleeps]
    exact (pairwise_lt_map_linear (maxRetryAttempts - 1) 1).chain'

/-- Witness for C4: three attempts against a client failing every
upload; the sleeps are `[2000, 4000]` and the error embeds the third
attempt's cause. -/
theorem createCaptionedVideo_retry_bound_witness :
    (createCaptionedVideo false "/out.mp4"
        (fun n => (.error ("boom " ++ toString n), [Event.remote RemoteCall.upload])) 3
      = (.error ("Failed to create captioned video after retries: "
            ++ ("boom " ++ toString 3)),
         alwaysFailTrace (fun _ => [Event.remote RemoteCall.upload]) 3 3 1)) ∧
    traceSleeps (alwaysFailTrace (fun _ => [Event.remote RemoteCall.upload]) 3 3 1)
      = (List.range' 1 (3 - 1)).map (fun k => 2000 * k) ∧
    List.Chain' (· < ·)
      (traceSleeps (alwaysFailTrace (fun _ => [Event.remote RemoteCall.upload]) 3 3 1)) :=
  createCaptionedVideo_retry_bound "/out.mp4"
    (fun n => "boom " ++ toString n) (fun _ => [Event.remote RemoteCall.upload])
    (fun n => (.error ("boom " ++ toString n), [Event.remote RemoteCall.upload])) 3
    (by omega) (fun _ => rfl) (fun _ => rfl)

/-- The task status payload returned by a Zapcap status probe
(`CaptionTaskStatus` of storage.service.ts). -/
structure CaptionTaskStatus where
  status : String
  error : Option String
  downloadUrl : Option String
  transcript : Option String
deriving Repr, DecidableEq

/-- The `while (true)` poll loop of `waitForTaskStatus`
(storage.service.ts lines 354-376), fuel-indexed: `probe k` is the
status returned by the `k`-th probe.  Each iteration issues one probe;
if its status is in `targetStatuses` the payload is returned, else if
it is `"failed"` the loop raises with the provider-supplied reason,
else the loop sleeps 2000 ms and continues.  The result is
`(outcome, probes issued, sleep durations issued)`, with outcome `none`
when the fuel ran out before the loop returned. -/
def waitForTaskStatus (probe : Nat → CaptionTaskStatus) (targetStatuses : List String) :
    Nat → Nat → Option (Except String CaptionTaskStatus) × Nat × List Nat
  | 0, _ => (none, 0, [])
  | fuel + 1, k =>
      let status := probe k
      if targetStatuses.contains status.status then
        (some (.ok status), 1, [])
      else if status.status = "failed" then
        (some (.error ("Zapcap task failed: " ++ status.error.getD "unknown error")), 1, [])
      else
        let rest := waitForTaskStatus probe targetStatuses fuel (k + 1)
        (rest.1, rest.2.1 + 1, 2000 :: rest.2.2)

/-- C6: a probe returning the explicit `failed` status (not itself a
target status) makes the poll loop raise at once with the
provider-supplied reason: exactly one probe is issued, no further probe
and no sleep follows, whatever fuel remains. -/
theorem waitForTaskStatus_failed_short_circuit
    (probe : Nat → CaptionTaskStatus) (targetStatuses : List String) (k fuel : Nat)
    (htarget : targetStatuses.contains (probe k).status = false)
    (hfailed : (probe k).status = "failed") :
    waitForTaskStatus probe targetStatuses (fuel + 1) k
      = (some (.error ("Zapcap task failed: " ++ ((probe k).error.getD "unknown error"))),
         1, []) := by
  have hmem : "failed" ∉ targetStatuses := by
    rw [← hfailed]
    simpa using htarget
  simp [waitForTaskStatus, hfailed, hmem]

/-- Witness for C6: a first probe answering `failed` with reason
`"render exploded"` aborts a poll on target `completed` immediately. -/
theorem waitForTaskStatus_failed_short_circuit_witness :
    waitForTaskStatus (fun _ => ⟨"failed", some "render exploded", none, none⟩)
        ["completed"] 6 0
      = (some (.error "Zapcap task failed: render exploded"), 1, []) :=
  waitForTaskStatus_failed_short_circuit
    (fun _ => ⟨"failed", some "render exploded", none, none⟩) ["completed"] 0 5
    (by decide) rfl

/-- C7: on a status sequence that never reaches a target status and
never reports `failed`, the poll loop never returns: however much fuel
it is given, it consumes all of it, issuing one probe per iteration and
a fixed 2000 ms sleep between consecutive probes — no jitter, no
backoff, no attempt ceiling, no timeout. -/
theorem waitForTaskStatus_polls_forever
    (probe : Nat → CaptionTaskStatus) (targetStatuses : List String)
    (h : ∀ n, targetStatuses.contains (probe n).status = false
        ∧ (probe n).status ≠ "failed") :
    ∀ (fuel k : Nat),
      waitForTaskStatus probe targetStatuses fuel k
        = (none, fuel, List.replicate fuel 2000) := by
  intro fuel
  induction fuel with
  | zero => intro k; rfl
  | succ f ih =>
      intro k
      have h1 : (probe k).status ∉ targetStatuses := by simpa using (h k).1
      have h2 := (h k).2
      simp [waitForTaskStatus, h1, h2, ih (k + 1), List.replicate_succ]

/-- Witness for C7: a job stuck at `transcribing` leaves the loop
probing 5 times over fuel 5 with five 2000 ms sleeps and no outcome. -/
theorem waitForTaskStatus_polls_forever_witness :
    waitForTaskStatus (fun _ => ⟨"transcribing", none, none, none⟩) ["completed"] 5 0
      = (none, 5, List.replicate 5 2000) :=
  waitForTaskStatus_polls_forever
    (fun _ => ⟨"transcribing", none, none, none⟩) ["completed"]
    (fun _ => ⟨rfl, by simp⟩) 5 0

/-- JavaScript's `language.toUpperCase()` as used in `createCaptionTask`,
modelled character-wise. -/
def toUpperCase (s : String) : String := String.mk (s.data.map Char.toUpper)

/-- The `languageToZapcapCode` table of storage.service.ts (lines
151-159): the provider-specific language codes, keyed by the uppercased
language name; `none` for a language without a known mapping. -/
def languageToZapcapCode (key : String) : Option String :=
  if key = "ENGLISH" then some "en"
  else if key = "SPANISH" then some "es"
  else if key = "RUSSIAN" then some "ru"
  else if key = "FRENCH" then some "fr"
  else if key = "GERMAN" then some "de"
  else if key = "ITALIAN" then some "it"
  else if key = "PORTUGUESE" then some "pt"
  else none

/-- `createCaptionTask` of storage.service.ts (lines 290-307): resolve
the provider language code from the uppercased request language; with
no mapping, throw the unsupported-language error before the
task-creation POST.  Otherwise the POST is issued (one `createTask`
remote event); `taskResponse` stands for the `taskId` field of the
provider's reply, `none` when the reply omits it. -/
def createCaptionTask (language : String) (taskResponse : Option String) :
    Except String String × List Event :=
  match languageToZapcapCode (toUpperCase language) with
  | none => (.error ("Unsupported caption language: " ++ language), [])
  | some _ =>
      match taskResponse with
      | some taskId => (.ok taskId, [Event.remote RemoteCall.createTask])
      | none =>
          (.error "Zapcap task response does not contain taskId",
           [Event.remote RemoteCall.createTask])

/-- C9: a request language with no known provider mapping makes
`createCaptionTask` fail with the unsupported-language error and an
empty event trace — the failure precedes the task-creation request,
whatever the provider would have answered. -/
theorem createCaptionTask_unsupported_language (language : String)
    (taskResponse : Option String)
    (h : languageToZapcapCode (toUpperCase language) = none) :
    createCaptionTask language taskResponse
      = (.error ("Unsupported caption language: " ++ language), []) := by
  simp [createCaptionTask, h]

/-- Witness for C9: the language `"japanese"` has no mapping and is
rejected with no remote event. -/
theorem createCaptionTask_unsupported_language_witness :
    languageToZapcapCode (toUpperCase "japanese") = none ∧
    createCaptionTask "japanese" (some "task-1")
      = (.error ("Unsupported caption language: " ++ "japanese"), []) :=
  ⟨by decide,
   createCaptionTask_unsupported_language "japanese" (some "task-1") (by decide)⟩

/-- A flat file system: paths associated with fully-written contents. -/
abbrev FileSystem := List (String × String)

/-- The content stored at a path, if any. -/
def fsGet (fs : FileSystem) (p : String) : Option String :=
  (fs.find? (fun entry => entry.1 == p)).map (fun entry => entry.2)

/-- Removing a path (`unlink`). -/
def fsDelete (fs : FileSystem) (p : String) : FileSystem :=
  fs.filter (fun entry => entry.1 != p)

/-- Writing a full file at a path, replacing any previous content. -/
def fsWrite (fs : FileSystem) (p c : String) : FileSystem :=
  (p, c) :: fsDelete fs p

/-- A primitive file-system effect of the re-encode branch. -/
inductive FsOp
  | writeFull (path content : String)
  | unlink (path : String)
  | rename (src dst : String)

/-- Semantics of one effect: `writeFull` stores a complete file,
`unlink` removes a path, `rename` moves a file from `src` to `dst`. -/
def applyFsOp (fs : FileSystem) : FsOp → FileSystem
  | .writeFull p c => fsWrite fs p c
  | .unlink p => fsDelete fs p
  | .rename src dst =>
      match fsGet fs src with
      | some c => fsWrite (fsDelete fs src) dst c
      | none => fs

/-- The file system after only the first `k` effects have executed
(the `k+1`-st failed or the process stopped there). -/
def execSteps (fs : FileSystem) (ops : List FsOp) (k : Nat) : FileSystem :=
  (ops.take k).foldl applyFsOp fs

/-- Splits a character list at the last occurrence of `sep`:
`some (before, after)`, or `none` when `sep` does not occur. -/
def splitAtLast (sep : Char) : List Char → Option (List Char × List Char)
  | [] => none
  | c :: cs =>
      match splitAtLast sep cs with
      | some (pre, post) => some (c :: pre, post)
      | none => if c = sep then some ([], cs) else none

/-- The temporary sibling path of `resampleAudioIfNeeded`
(media.service.ts lines 112-113): `path.parse` the file path into
directory, name and extension and resolve
`${name}_resampled_${targetRate}${ext}` next to the original. -/
def temporaryOutputPath (filePath : String) (targetRate : Nat) : String :=
  let parts :=
    match splitAtLast '/' filePath.data with
    | some (d, b) => (String.mk d ++ "/", b)
    | none => ("", filePath.data)
  let stem :=
    match splitAtLast '.' parts.2 with
    | some (n, e) => if n = [] then (parts.2, ([] : List Char)) else (n, '.' :: e)
    | none => (parts.2, [])
  parts.1 ++ String.mk stem.1 ++ "_resampled_" ++ toString targetRate ++ String.mk stem.2

/-- The effect sequence of the re-encode branch of
`resampleAudioIfNeeded` (media.service.ts lines 115-129), in source
order: ffmpeg fully writes the temporary sibling file, then the
original is unlinked, then the temporary file is renamed into place. -/
def resamplePlan (filePath : String) (targetRate : Nat) (encoded : String) : List FsOp :=
  [ .writeFull (temporaryOutputPath filePath targetRate) encoded,
    .unlink filePath,
    .rename (temporaryOutputPath filePath targetRate) filePath ]

/-- `resampleAudioIfNeeded` of media.service.ts (lines 106-132).
`sampleRateOf` models the ffprobe sample-rate probe on a file's content
(`none`: probe failure), `encode` the ffmpeg re-encode of a content at
the target rate.  Probe the file; when the rate already equals the
target, return the path with the file system untouched; otherwise
execute the re-encode plan and return the path. -/
def resampleAudioIfNeeded (fs : FileSystem) (filePath : String)
    (sampleRateOf : String → Option Nat) (encode : String → String)
    (targetRate : Nat) : Except String (FileSystem × String) :=
  match fsGet fs filePath with
  | none => .error ("Audio sample_rate was not found: " ++ filePath)
  | some content =>
      match sampleRateOf content with
      | none => .error ("Audio sample_rate was not found: " ++ filePath)
      | some sampleRate =>
          if sampleRate = targetRate then
            .ok (fs, filePath)
          else
            .ok ((resamplePlan filePath targetRate (encode content)).foldl applyFsOp fs,
                 filePath)

theorem fsGet_cons_of_eq (entry : String × String) (rest : FileSystem) (q : String)
    (h : entry.1 = q) : fsGet (entry :: rest) q = some entry.2 := by
  have hb : (entry.1 == q) = true := beq_iff_eq.mpr h
  simp [fsGet, List.find?, hb]

theorem fsGet_cons_of_ne (entry : String × String) (rest : FileSystem) (q : String)
    (h : entry.1 ≠ q) : fsGet (entry :: rest) q = fsGet rest q := by
  have hb : (entry.1 == q) = false := by simpa using h
  simp [fsGet, List.find?, hb]

theorem fsDelete_cons_of_eq (entry : String × String) (rest : FileSystem) (p : String)
    (h : entry.1 = p) : fsDelete (entry :: rest) p = fsDelete rest p := by
  simp [fsDelete, List.filter_cons, h]

theorem fsDelete_cons_of_ne (entry : String × String) (rest : FileSystem) (p : String)
    (h : entry.1 ≠ p) : fsDelete (entry :: rest) p = entry :: fsDelete rest p := by
  simp [fsDelete, List.filter_cons, h]

theorem fsGet_fsWrite_self (fs : FileSystem) (p c : String) :
    fsGet (fsWrite fs p c) p = some c := by
  simpa using fsGet_cons_of_eq (p, c) (fsDelete fs p) p rfl

theorem fsGet_fsDelete_self (fs : FileSystem) (p : String) :
    fsGet (fsDelete fs p) p = none := by
  induction fs with
  | nil => rfl
  | cons entry rest ih =>
      by_cases h : entry.1 = p
      · rw [fsDelete_cons_of_eq entry rest p h]; exact ih
      · rw [fsDelete_cons_of_ne entry rest p h, fsGet_cons_of_ne entry _ p h]; exact ih

theorem fsGet_fsDelete_other (fs : FileSystem) (p q : String) (h : q ≠ p) :
    fsGet (fsDelete fs p) q = fsGet fs q := by
  induction fs with
  | nil => rfl
  | cons entry rest ih =>
      by_cases he : entry.1 = p
      · have hq : entry.1 ≠ q := by rw [he]; exact fun hc => h hc.symm
        rw [fsDelete_cons_of_eq entry rest p he, fsGet_cons_of_ne entry rest q hq]
        exact ih
      · by_cases hq : entry.1 = q
        · rw [fsDelete_cons_of_ne entry rest p he, fsGet_cons_of_eq entry _ q hq,
            fsGet_cons_of_eq entry rest q hq]
        · rw [fsDelete_cons_of_ne entry rest p he, fsGet_cons_of_ne entry _ q hq,
            fsGet_cons_of_ne entry rest q hq]
          exact ih

theorem fsGet_fsWrite_other (fs : FileSystem) (p q c : String) (h : q ≠ p) :
    fsGet (fsWrite fs p c) q = fsGet fs q := by
  have hp : ((p, c) : String × String).1 ≠ q := fun hc => h (by simpa using hc.symm)
  rw [fsWrite, fsGet_cons_of_ne (p, c) _ q hp]
  exact fsGet_fsDelete_other fs p q h

/-- C8: probing a file already at the target rate leaves the file
system completely untouched — no re-encode, no temporary file, bytes
unchanged — and returns the same path. -/
theorem resampleAudioIfNeeded_noop (fs : FileSystem) (filePath content : String)
    (sampleRateOf : String → Option Nat) (encode : String → String) (targetRate : Nat)
    (hfile : fsGet fs filePath = some content)
    (hrate : sampleRateOf content = some targetRate) :
    resampleAudioIfNeeded fs filePath sampleRateOf encode targetRate
      = .ok (fs, filePath) := by
  simp [resampleAudioIfNeeded, hfile, hrate]

/-- Witness for C8: a file probed at exactly 44100 Hz is returned
untouched. -/
theorem resampleAudioIfNeeded_noop_witness :
    resampleAudioIfNeeded [("/a/video.mp4", "orig")] "/a/video.mp4"
        (fun c => if c = "orig" then some 44100 else none) (fun _ => "enc") 44100
      = .ok ([("/a/video.mp4", "orig")], "/a/video.mp4") :=
  resampleAudioIfNeeded_noop [("/a/video.mp4", "orig")] "/a/video.mp4" "orig"
    (fun c => if c = "orig" then some 44100 else none) (fun _ => "enc") 44100
    (by decide) (by decide)

/-- Counterexample to C5 as stated: original at `/a/video.mp4`
(content `"orig"`, probed 48000 Hz against target 44100 Hz); executing
the re-encode plan through the full write and the unlink and then
failing at the rename leaves NO file at the original path — the old
file is not still present after such a mid-way rename failure, and the
original content survives nowhere: only the re-encoded content at the
temporary sibling path remains. -/
theorem resample_rename_failure_original_absent :
    fsGet (execSteps [("/a/video.mp4", "orig")]
        (resamplePlan "/a/video.mp4" 44100 "enc") 2) "/a/video.mp4" = none ∧
    execSteps [("/a/video.mp4", "orig")] (resamplePlan "/a/video.mp4" 44100 "enc") 2
      = [("/a/video_resampled_44100.mp4", "enc")] := by
  refine ⟨by decide, by decide⟩

/-- C5 (amended): on a rate mismatch the normalizer re-encodes into a
temporary sibling file and the original is only deleted after the new
file is fully written: before and after the full write (prefixes of
length 0 and 1 of the effect plan) the original is intact at its path,
and the destination is never half-written — after every prefix it
holds the original content, no file, or the complete re-encoded
content.  If the rename fails after the unlink (prefix of length 2)
the original path holds no file; the fully written re-encoded content
survives only at the temporary path.  A completed run leaves the
re-encoded file at the original path and removes the temporary one. -/
theorem resampleAudioIfNeeded_reencode_steps
    (fs : FileSystem) (filePath content : String)
    (sampleRateOf : String → Option Nat) (encode : String → String)
    (targetRate sampleRate : Nat)
    (hfile : fsGet fs filePath = some content)
    (hrate : sampleRateOf content = some sampleRate)
    (hne : sampleRate ≠ targetRate)
    (htemp : temporaryOutputPath filePath targetRate ≠ filePath) :
    resampleAudioIfNeeded fs filePath sampleRateOf encode targetRate
      = .ok (execSteps fs (resamplePlan filePath targetRate (encode content)) 3,
             filePath) ∧
    fsGet (execSteps fs (resamplePlan filePath targetRate (encode content)) 0) filePath
      = some content ∧
    fsGet (execSteps fs (resamplePlan filePath targetRate (encode content)) 1) filePath
      = some content ∧
    fsGet (execSteps fs (resamplePlan filePath targetRate (encode content)) 1)
        (temporaryOutputPath filePath targetRate) = some (encode content) ∧
    fsGet (execSteps fs (resamplePlan filePath targetRate (encode content)) 2) filePath
      = none ∧
    fsGet (execSteps fs (resamplePlan filePath targetRate (encode content)) 2)
        (temporaryOutputPath filePath targetRate) = some (encode content) ∧
    fsGet (execSteps fs (resamplePlan filePath targetRate (encode content)) 3) filePath
      = some (encode content) ∧
    fsGet (execSteps fs (resamplePlan filePath targetRate (encode content)) 3)
        (temporaryOutputPath filePath targetRate) = none := by
  have hfp : filePath ≠ temporaryOutputPath filePath targetRate := Ne.symm htemp
  have h1 : execSteps fs (resamplePlan filePath targetRate (encode content)) 1
      = fsWrite fs (temporaryOutputPath filePath targetRate) (encode content) := rfl
  have h2 : execSteps fs (resamplePlan filePath targetRate (encode content)) 2
      = fsDelete (fsWrite fs (temporaryOutputPath filePath targetRate) (encode content))
          filePath := rfl
  have hg2temp :
      fsGet (fsDelete (fsWrite fs (temporaryOutputPath filePath targetRate) (encode content))
          filePath) (temporaryOutputPath filePath targetRate) = some (encode content) :=
    (fsGet_fsDelete_other _ filePath _ htemp).trans
      (fsGet_fsWrite_self fs _ (encode content))
  have h3 : execSteps fs (resamplePlan filePath targetRate (encode content)) 3
      = fsWrite
          (fsDelete
            (fsDelete (fsWrite fs (temporaryOutputPath filePath targetRate) (encode content))
              filePath)
            (temporaryOutputPath filePath targetRate))
          filePath (encode content) := by
    have hstep : execSteps fs (resamplePlan filePath targetRate (encode content)) 3
        = applyFsOp
            (fsDelete (fsWrite fs (temporaryOutputPath filePath targetRate) (encode content))
              filePath)
            (.rename (temporaryOutputPath filePath targetRate) filePath) := rfl
    rw [hstep]
    simp only [applyFsOp, hg2temp]
  refine ⟨?_, hfile, ?_, ?_, ?_, ?_, ?_, ?_⟩
  · simp [resampleAudioIfNeeded, hfile, hrate, hne, execSteps, resamplePlan]
  · rw [h1, fsGet_fsWrite_other fs _ filePath (encode content) hfp]
    exact hfile
  · rw [h1, fsGet_fsWrite_self]
  · rw [h2, fsGet_fsDelete_self]
  · rw [h2]; exact hg2temp
  · rw [h3, fsGet_fsWrite_self]
  · rw [h3, fsGet_fsWrite_other _ filePath _ (encode content) htemp, fsGet_fsDelete_self]

/-- Concrete file system for the C5 witness. -/
def fsEx : FileSystem := [("/a/video.mp4", "orig")]

/-- Concrete probe for the C5 witness: the original content probes at
48000 Hz. -/
def rateOfEx : String → Option Nat := fun c => if c = "orig" then some 48000 else none

/-- Concrete re-encode for the C5 witness. -/
def encodeEx : String → String := fun _ => "enc"

/-- The concrete effect plan of the C5 witness. -/
def planEx : List FsOp := resamplePlan "/a/video.mp4" 44100 (encodeEx "orig")

/-- The concrete temporary sibling path of the C5 witness. -/
def tempEx : String := temporaryOutputPath "/a/video.mp4" 44100

/-- Witness for the amended C5 at the concrete re-encode run. -/
theorem resampleAudioIfNeeded_reencode_steps_witness :
    resampleAudioIfNeeded fsEx "/a/video.mp4" rateOfEx encodeEx 44100
      = .ok (execSteps fsEx planEx 3, "/a/video.mp4") ∧
    fsGet (execSteps fsEx planEx 0) "/a/video.mp4" = some "orig" ∧
    fsGet (execSteps fsEx planEx 1) "/a/video.mp4" = some "orig" ∧
    fsGet (execSteps fsEx planEx 1) tempEx = some (encodeEx "orig") ∧
    fsGet (execSteps fsEx planEx 2) "/a/video.mp4" = none ∧
    fsGet (execSteps fsEx planEx 2) tempEx = some (encodeEx "orig") ∧
    fsGet (execSteps fsEx planEx 3) "/a/video.mp4" = some (encodeEx "orig") ∧
    fsGet (execSteps fsEx planEx 3) tempEx = none :=
  resampleAudioIfNeeded_reencode_steps fsEx "/a/video.mp4" "orig" rateOfEx encodeEx
    44100 48000 (by decide) (by decide) (by decide) (by decide)

/-- A JavaScript-object heap for transcript chunks: `next` is the next
fresh address, `data` the chunk stored at each address.  Chunk objects
are heap cells, so in-place mutation and aliasing are observable. -/
structure ChunkHeap where
  next : Nat
  data : Nat → TranscriptChunk

/-- `transcript.map((chunk) => ({ ...chunk }))` (storage.service.ts
line 427) on the heap: allocate a fresh shallow copy of the chunk at
every listed address, in order, returning the grown heap and the
addresses of the copies. -/
def allocCopies : ChunkHeap → List Nat → ChunkHeap × List Nat
  | h, [] => (h, [])
  | h, a :: rest =>
      let res := allocCopies
        { next := h.next + 1,
          data := fun n => if n = h.next then h.data a else h.data n } rest
      (res.1, h.next :: res.2)

/-- The in-place correction loop of `correctTranscript` (lines
429-435) on the heap: walk the copies' addresses; a chunk with
non-empty text is overwritten in place with the next corrected text
(falling back to its own text if the corrected list is exhausted). -/
def mutateCopies (correctedChunks : List String) :
    ChunkHeap → List Nat → Nat → ChunkHeap
  | h, [], _ => h
  | h, a :: rest, i =>
      if chunkHasText (h.data a) then
        mutateCopies correctedChunks
          { h with
            data := fun n =>
              if n = a then
                { h.data a with
                  text :=
                    match correctedChunks[i]? with
                    | some t => some t
                    | none => (h.data a).text }
              else h.data n }
          rest (i + 1)
      else
        mutateCopies correctedChunks h rest i

/-- `correctTranscript` (storage.service.ts lines 408-438) on the
heap: the input transcript is a list of chunk addresses; after the
shape check, fresh copies of all chunks are allocated and the copies
are corrected in place; the result is the final heap and the copies'
addresses. -/
def correctTranscriptHeap (h : ChunkHeap) (transcript : List Nat)
    (correctedChunks : List String) : Except String (ChunkHeap × List Nat) :=
  let compact := transcript.filter (fun a => chunkHasText (h.data a))
  if correctedChunks.length ≠ compact.length then
    .error "Corrected transcript length does not match original transcript length"
  else
    let res := allocCopies h transcript
    .ok (mutateCopies correctedChunks res.1 res.2 0, res.2)

theorem allocCopies_next :
    ∀ (addrs : List Nat) (h : ChunkHeap),
      (allocCopies h addrs).1.next = h.next + addrs.length := by
  intro addrs
  induction addrs with
  | nil => intro h; rfl
  | cons a rest ih =>
      intro h
      simp only [allocCopies, ih, List.length_cons]
      omega

theorem allocCopies_data_lt :
    ∀ (addrs : List Nat) (h : ChunkHeap) (n : Nat), n < h.next →
      (allocCopies h addrs).1.data n = h.data n := by
  intro addrs
  induction addrs with
  | nil => intro h n _; rfl
  | cons a rest ih =>
      intro h n hn
      have hne : n ≠ h.next := by omega
      simp only [allocCopies]
      rw [ih _ n (by simpa using Nat.lt_succ_of_lt hn)]
      simp [hne]

theorem allocCopies_mem_ge :
    ∀ (addrs : List Nat) (h : ChunkHeap) (c : Nat),
      c ∈ (allocCopies h addrs).2 → h.next ≤ c := by
  intro addrs
  induction addrs with
  | nil => intro h c hc; simp [allocCopies] at hc
  | cons a rest ih =>
      intro h c hc
      simp only [allocCopies, List.mem_cons] at hc
      rcases hc with hc | hc
      · omega
      · have := ih _ c hc
        simp at this
        omega

theorem allocCopies_snd_length :
    ∀ (addrs : List Nat) (h : ChunkHeap),
      (allocCopies h addrs).2.length = addrs.length := by
  intro addrs
  induction addrs with
  | nil => intro h; rfl
  | cons a rest ih => intro h; simp [allocCopies, ih]

theorem mutateCopies_data_not_mem (correctedChunks : List String) :
    ∀ (addrs : List Nat) (h : ChunkHeap) (i n : Nat), n ∉ addrs →
      (mutateCopies correctedChunks h addrs i).data n = h.data n := by
  intro addrs
  induction addrs with
  | nil => intro h i n _; rfl
  | cons a rest ih =>
      intro h i n hn
      have hna : n ≠ a := fun hc => hn (hc ▸ List.mem_cons_self a rest)
      have hnr : n ∉ rest := fun hc => hn (List.mem_cons_of_mem a hc)
      by_cases hc : chunkHasText (h.data a)
      · simp only [mutateCopies, hc, if_true]
        rw [ih _ (i + 1) n hnr]
        simp [hna]
      · simp only [mutateCopies, hc, if_false, Bool.false_eq_true]
        exact ih _ i n hnr

/-- C10: `correctTranscript` never mutates its input.  On the heap
model, with the transcript given as addresses of live chunk objects and
a shape-correct correction reply, the call succeeds, every address
already allocated before the call (in particular the caller's chunks)
still holds exactly its old chunk afterwards, and the returned list
consists solely of fresh addresses — one copy per input chunk. -/
theorem correctTranscriptHeap_no_input_mutation (h : ChunkHeap) (transcript : List Nat)
    (correctedChunks : List String)
    (haddr : ∀ a ∈ transcript, a < h.next)
    (hshape : correctedChunks.length
        = (transcript.filter (fun a => chunkHasText (h.data a))).length) :
    ∃ h' copies,
      correctTranscriptHeap h transcript correctedChunks = .ok (h', copies) ∧
      (∀ a, a < h.next → h'.data a = h.data a) ∧
      (∀ c ∈ copies, h.next ≤ c) ∧
      copies.length = transcript.length := by
  refine ⟨mutateCopies correctedChunks (allocCopies h transcript).1
      (allocCopies h transcript).2 0,
    (allocCopies h transcript).2, ?_, ?_, ?_, ?_⟩
  · simp [correctTranscriptHeap, hshape]
  · intro a ha
    have hnotmem : a ∉ (allocCopies h transcript).2 := fun hc => by
      have := allocCopies_mem_ge transcript h a hc
      omega
    rw [mutateCopies_data_not_mem correctedChunks _ _ 0 a hnotmem]
    exact allocCopies_data_lt transcript h a ha
  · exact fun c hc => allocCopies_mem_ge transcript h c hc
  · exact allocCopies_snd_length transcript h

/-- Concrete heap for the C10 witness: two live chunks at addresses 0
(text `"helo"`) and 1 (a placeholder). -/
def heapEx : ChunkHeap :=
  ⟨2, fun n => if n = 0 then ⟨some "helo", 10⟩ else if n = 1 then ⟨none, 20⟩ else ⟨none, 0⟩⟩

/-- Witness for C10 at a concrete two-chunk transcript with one
corrected text. -/
theorem correctTranscriptHeap_no_input_mutation_witness :
    ∃ h' copies,
      correctTranscriptHeap heapEx [0, 1] ["hello"] = .ok (h', copies) ∧
      (∀ a, a < heapEx.next → h'.data a = heapEx.data a) ∧
      (∀ c ∈ copies, heapEx.next ≤ c) ∧
      copies.length = [0, 1].length :=
  correctTranscriptHeap_no_input_mutation heapEx [0, 1] ["hello"]
    (by decide) (by decide)
